import Mathlib

/-!
# Verification of the approval-voting block-import core

Shallow embedding of `polkadot/node/core/approval-voting/src/import.rs`
(`imported_block_info` and `handle_new_head`) together with the storage
operations it drives, and proofs of the specification claims about it.

Hashes, block numbers, slots, session indices, core indices and group
indices are modelled as `Nat`; the machine types in the source (`u32`,
`u64`, `usize`) never overflow in the operations the claims exercise, and
the single saturating subtraction in the source is exactly `Nat`
subtraction.
-/

namespace ApprovalImport

/-- Block hashes (opaque 256-bit values in the source). -/
abbrev Hash := Nat

/-- Block numbers (`u32` in the source). -/
abbrev BlockNumber := Nat

/-- Result of a runtime-API oneshot exchange, as matched in the source:
`Ok(Ok(x))`, `Ok(Err(runtime error))`, or `Err(oneshot::Canceled)`. -/
inductive OResult (α : Type) where
  | ok (a : α)
  | runtimeError
  | cancelled
deriving DecidableEq

/-- The request a cancelled oneshot future belonged to (the source stores a
static string naming the request). -/
inductive RequestKind where
  | candidateEventsReq
  | sessionIndexForChildReq
  | currentBabeEpochReq
deriving DecidableEq

/-- A candidate event returned by the runtime: the source keeps only
`CandidateIncluded(receipt, _, core, group)` and records
`(receipt.hash(), receipt, core, group)`; the receipt is carried opaquely
and identified here by its hash. -/
inductive CandidateEvent where
  | candidateIncluded (candidateHash coreIndex groupIndex : Nat)
  | otherEvent
deriving DecidableEq

/-- One entry of the header's consensus digest, given as the outcome of the
external parser `ConsensusLog::from_digest_item`: a well-formed
force-approve directive, some other well-formed log, no consensus log at
all (`Ok(None)`), or a malformed entry (`Err(..)`). -/
inductive DigestLog where
  | forceApproveLog (num : BlockNumber)
  | otherLog
  | noLog
  | malformed
deriving DecidableEq

/-- The BABE pre-digest data `babe_unsafe_vrf_info` extracts from a header
(the extraction itself is external code); `none` models a header with no
verifiable-random-function pre-commitment. -/
structure UnsafeVrfInfo where
  slot : Nat
  vrfOutput : Nat
deriving DecidableEq

/-- A block header, with the digest already split into per-item parse
outcomes and the VRF pre-commitment already extracted. -/
structure Header where
  parentHash : Hash
  number : BlockNumber
  digest : List DigestLog
  unsafeVrf : Option UnsafeVrfInfo
deriving DecidableEq

/-- A BABE epoch record, as returned by `CurrentBabeEpoch`. -/
structure BabeEpoch where
  authorities : List Nat
  randomness : Nat
  epochIndex : Nat
deriving DecidableEq

/-- The session facts used by import: the validator list, the partition
into groups, and the needed-approval count (`u32` in the source). -/
structure SessionInfo where
  validators : List Nat
  validatorGroups : List (List Nat)
  neededApprovals : Nat
deriving DecidableEq

/-- Extended session facts: the bit-indexed node feature flags. -/
structure ExtendedSessionInfo where
  nodeFeatures : List Bool
deriving DecidableEq

/-- Index of the `EnableAssignmentsV2` feature bit
(`node_features::FeatureIndex::EnableAssignmentsV2 as usize`). -/
def enableAssignmentsV2Index : Nat := 0

/-- The runtime-state oracle: every request `imported_block_info` issues,
as a pure function of the hash it is queried at.  `sessionInfo` and
`extendedSessionInfo` stand for the cache-backed helpers
`get_session_info` / `get_extended_session_info`. -/
structure RuntimeOracle where
  candidateEvents : Hash → OResult (List CandidateEvent)
  sessionIndexForChild : Hash → OResult Nat
  currentBabeEpoch : Hash → OResult BabeEpoch
  sessionInfo : Hash → Nat → Option SessionInfo
  extendedSessionInfo : Hash → Nat → Option ExtendedSessionInfo

/-- The chain-API oracle: header lookup and finalized-hash-at-height. -/
structure ChainOracle where
  blockHeader : Hash → OResult (Option Header)
  finalizedBlockHash : BlockNumber → OResult (Option Hash)

/-- The cryptographic environment: `compute_randomness` on the VRF
pre-commitment (may fail with an `ApprovalError`), and the
`AssignmentCriteria::compute_assignments` implementation, producing a
(core index, assignment) map from the relay-VRF story, the
(candidate, core, group) triples and the v2-assignments flag. -/
structure CryptoEnv where
  computeRandomness : UnsafeVrfInfo → BabeEpoch → Except Unit Nat
  computeAssignments : Nat → List (Nat × Nat × Nat) → Bool → List (Nat × Nat)

/-- The error type `ImportedBlockInfoError` from the source. -/
inductive ImportedBlockInfoError where
  | runtimeError
  | futureCancelled (req : RequestKind)
  | approvalError
  | blockAlreadyFinalized
  | sessionInfoUnavailable
  | vrfInfoUnavailable
deriving DecidableEq

/-- The record `ImportedBlockInfo` from the source: the extracted block facts. -/
structure ImportedBlockInfo where
  includedCandidates : List (Nat × Nat × Nat)
  sessionIndex : Nat
  assignments : List (Nat × Nat)
  nValidators : Nat
  relayVrfStory : Nat
  slot : Nat
  forceApprove : Option BlockNumber
deriving DecidableEq

/-- The digest helper `convert_first`: apply `f` to each digest item in order and
return the first `some` result. -/
def convert_first (f : α → Option β) : List α → Option β
  | [] => none
  | x :: xs =>
    match f x with
    | some b => some b
    | none => convert_first f xs

/-- The closure `imported_block_info` passes to `convert_first`: honor a
`ForceApprove(num)` log only when `num < number`; other logs, absent logs
and malformed entries all map to `None`. -/
def forceApproveOfLog (number : BlockNumber) : DigestLog → Option BlockNumber
  | DigestLog.forceApproveLog num => if num < number then some num else none
  | DigestLog.otherLog => none
  | DigestLog.noLog => none
  | DigestLog.malformed => none

/-- The force-approve extraction in `imported_block_info`. -/
def extractForceApprove (header : Header) : Option BlockNumber :=
  convert_first (forceApproveOfLog header.number) header.digest

/-- Fact extraction `imported_block_info`: extract the per-block facts, or fail with a
typed error.  Faithful to the source's order of oracle exchanges and
checks: candidate events at the block's hash, session index at the
*parent* hash, the finalized-height check, the BABE epoch at the block's
*own* hash, extended session info, session info, then the VRF block and
the digest scan. -/
def imported_block_info (env : CryptoEnv) (oracle : RuntimeOracle)
    (blockHash : Hash) (header : Header) (lastFinalizedHeight : Option BlockNumber) :
    Except ImportedBlockInfoError ImportedBlockInfo :=
  match oracle.candidateEvents blockHash with
  | OResult.runtimeError => Except.error ImportedBlockInfoError.runtimeError
  | OResult.cancelled =>
      Except.error (ImportedBlockInfoError.futureCancelled RequestKind.candidateEventsReq)
  | OResult.ok events =>
    let includedCandidates : List (Nat × Nat × Nat) :=
      events.filterMap fun e =>
        match e with
        | CandidateEvent.candidateIncluded h c g => some (h, c, g)
        | CandidateEvent.otherEvent => none
    match oracle.sessionIndexForChild header.parentHash with
    | OResult.runtimeError => Except.error ImportedBlockInfoError.runtimeError
    | OResult.cancelled =>
        Except.error (ImportedBlockInfoError.futureCancelled RequestKind.sessionIndexForChildReq)
    | OResult.ok sessionIndex =>
      if match lastFinalizedHeight with
         | some finalized => decide (header.number < finalized)
         | none => false then
        Except.error ImportedBlockInfoError.blockAlreadyFinalized
      else
        match oracle.currentBabeEpoch blockHash with
        | OResult.runtimeError => Except.error ImportedBlockInfoError.runtimeError
        | OResult.cancelled =>
            Except.error (ImportedBlockInfoError.futureCancelled RequestKind.currentBabeEpochReq)
        | OResult.ok babeEpoch =>
          let enableV2 : Bool :=
            match oracle.extendedSessionInfo blockHash sessionIndex with
            | some ext => ext.nodeFeatures.getD enableAssignmentsV2Index false
            | none => false
          match oracle.sessionInfo blockHash sessionIndex with
          | none => Except.error ImportedBlockInfoError.sessionInfoUnavailable
          | some sessionInfo =>
            match header.unsafeVrf with
            | none => Except.error ImportedBlockInfoError.vrfInfoUnavailable
            | some unsafeVrf =>
              match env.computeRandomness unsafeVrf babeEpoch with
              | Except.error _ => Except.error ImportedBlockInfoError.approvalError
              | Except.ok relayVrf =>
                let assignments :=
                  env.computeAssignments relayVrf includedCandidates enableV2
                let forceApprove := extractForceApprove header
                Except.ok
                  { includedCandidates := includedCandidates
                    sessionIndex := sessionIndex
                    assignments := assignments
                    nValidators := sessionInfo.validators.length
                    relayVrfStory := relayVrf
                    slot := unsafeVrf.slot
                    forceApprove := forceApprove }

/-- The persisted block record (`v3::BlockEntry`), restricted to the
fields the import path writes and reads: `candidates` is the list of
(core index, candidate hash) pairs, `approvedBitfield` has one bit per
candidate. -/
structure BlockEntry where
  blockHash : Hash
  parentHash : Hash
  blockNumber : BlockNumber
  session : Nat
  slot : Nat
  relayVrfStory : Nat
  candidates : List (Nat × Nat)
  approvedBitfield : List Bool
  children : List Hash
deriving DecidableEq

/-- The overlayed backend's block-entry store: an association list from
block hash to block entry (read-your-own-writes view of the database). -/
abbrev DB := List (Hash × BlockEntry)

/-- Load a block entry from the overlay. -/
def lookupDB (db : DB) (h : Hash) : Option BlockEntry :=
  (db.find? fun p => decide (p.1 = h)).map Prod.snd

/-- Overwrite the entry stored under a hash (no-op if the hash is absent). -/
def updateDB (db : DB) (h : Hash) (e : BlockEntry) : DB :=
  db.map fun p => if p.1 = h then (h, e) else p

/-- Store an entry under a hash, overwriting any previous entry. -/
def insertDB (db : DB) (h : Hash) (e : BlockEntry) : DB :=
  if (lookupDB db h).isSome then updateDB db h e else db ++ [(h, e)]

/-- Number of set bits (`count_ones`) of a bitfield. -/
def countOnes (bf : List Bool) : Nat := bf.count true

/-- A block entry whose approval bitfield is fully set (vacuously so when
it has no candidates). -/
def isFullyApproved (e : BlockEntry) : Bool := e.approvedBitfield.all fun b => b

/-- The per-candidate insta-approval test of `handle_new_head`: the
backing-group size is looked up in the per-group length list, defaulting
to `0` when the group index is out of range
(`validator_group_lens.get(backing_group).copied().unwrap_or(0)`), and the
bit is set when `n_validators.saturating_sub(backing_group_size) <
needed_approvals`.  `Nat` subtraction is exactly the saturating
subtraction of the source. -/
def instaApprovalCond (neededApprovals nValidators : Nat)
    (validatorGroupLens : List Nat) (backingGroup : Nat) : Bool :=
  let backingGroupSize := (validatorGroupLens.get? backingGroup).getD 0
  decide (nValidators - backingGroupSize < neededApprovals)

/-- The approved-bitfield construction of `handle_new_head`: if
`needed_approvals == 0` every bit is set; otherwise start from an all-zero
bitfield with one bit per included candidate and set bit `i` whenever the
insta-approval condition holds for candidate `i`'s backing group. -/
def computeApprovedBitfield (neededApprovals nValidators : Nat)
    (validatorGroupLens : List Nat)
    (includedCandidates : List (Nat × Nat × Nat)) : List Bool :=
  let numCandidates := includedCandidates.length
  if neededApprovals = 0 then
    List.replicate numCandidates true
  else
    includedCandidates.enum.foldl
      (fun result p =>
        if instaApprovalCond neededApprovals nValidators validatorGroupLens p.2.2.2 then
          result.set p.1 true
        else result)
      (List.replicate numCandidates false)

/-- Modelled from the spec: `crate::ops::add_block_entry` is not under
`src/`; per §4.5 it "inserts the block record, links it as a child of its
parent (if the parent exists in storage), creates one per-work-item
verification record per entry, and returns the set of (hash, record)
pairs created".  The created records are abstracted to the list of
candidate hashes. -/
def add_block_entry (db : DB) (entry : BlockEntry) : DB × List Nat :=
  let db' :=
    match lookupDB db entry.parentHash with
    | some p =>
        updateDB db entry.parentHash { p with children := p.children ++ [entry.blockHash] }
    | none => db
  (insertDB db' entry.blockHash entry, entry.candidates.map Prod.snd)

/-- Mark an entry's approval bitfield fully set. -/
def setFullBitfield (e : BlockEntry) : BlockEntry :=
  { e with approvedBitfield := List.replicate e.approvedBitfield.length true }

/-- Modelled from the spec: `crate::ops::force_approve` is not under
`src/`; per §4.5 it "walks backward through parent links from the given
block, marking every ancestor's bitfield fully set until either the
target height is reached or an already-fully-approved ancestor is found
(cascade stops early ...). Returns the set of newly-approved block
hashes".  The walk also stops at a hash with no stored entry.  Fuel-based
recursion; the driver supplies fuel exceeding the store size. -/
def force_approve_loop : Nat → DB → Hash → BlockNumber → DB × List Hash
  | 0, db, _, _ => (db, [])
  | Nat.succ fuel, db, curHash, upTo =>
    match lookupDB db curHash with
    | none => (db, [])
    | some entry =>
      if isFullyApproved entry then (db, [])
      else
        let db' := updateDB db curHash (setFullBitfield entry)
        if entry.blockNumber ≤ upTo then (db', [curHash])
        else
          let r := force_approve_loop fuel db' entry.parentHash upTo
          (r.1, curHash :: r.2)

/-- The `k`-th ancestor of `h` along the parent links recorded in the
store (`0` is `h` itself). -/
def ancestorAt (db : DB) : Hash → Nat → Option Hash
  | h, 0 => some h
  | h, Nat.succ k =>
    match lookupDB db h with
    | some e => ancestorAt db e.parentHash k
    | none => none

/-- Modelled from the spec: the force-approve cascade entry point (§4.5). -/
def force_approve (db : DB) (blockHash : Hash) (upTo : BlockNumber) : DB × List Hash :=
  force_approve_loop (db.length + 1) db blockHash upTo

/-- The constant `MAX_FINALITY_LAG`, the fixed maximum look-back constant
(`MAX_HEADS_LOOK_BACK` aliases it); its numeric value lives outside
`src/` and no claim depends on it. -/
def MAX_FINALITY_LAG : Nat := 500

/-- The lower bound `handle_new_head` passes to ancestry reconciliation:
`header.number.saturating_sub(MAX_HEADS_LOOK_BACK)` then
`finalized_number.unwrap_or(lower).max(lower)`. -/
def lower_bound_number (headNumber : BlockNumber)
    (finalizedNumber : Option BlockNumber) : BlockNumber :=
  let lowerBound := headNumber - MAX_FINALITY_LAG
  max (finalizedNumber.getD lowerBound) lowerBound

/-- The compact per-block summary sent to approval distribution
(`BlockApprovalMeta`). -/
structure BlockApprovalMeta where
  hash : Hash
  number : BlockNumber
  parentHash : Hash
  candidates : List (Nat × Nat × Nat)
  slot : Nat
  session : Nat
  vrfStory : Nat
deriving DecidableEq

/-- The record `BlockImportedCandidates`: the per-block value returned to the caller
(the candidate entries abstracted to their hashes). -/
structure BlockImportedCandidates where
  blockHash : Hash
  blockNumber : BlockNumber
  blockTick : Nat
  importedCandidates : List Nat
deriving DecidableEq

/-- The observable actions `handle_new_head` performs, in order: a
`ChainSelectionMessage::Approved` send, an `add_block_entry` write, the
"Skipping chain" warning log, and the final batched
`ApprovalDistributionMessage::NewBlocks` send. -/
inductive Action where
  | sendApproved (h : Hash)
  | addBlock (h : Hash)
  | warnSkipping (h : Hash)
  | sendNewBlocks (metas : List BlockApprovalMeta)
deriving DecidableEq

/-- The pieces of `State` that `handle_new_head` reads, with the external
pure function `slot_number_to_tick` carried as a field. -/
structure ImportState where
  crypto : CryptoEnv
  slotDurationMillis : Nat
  slotNumberToTick : Nat → Nat → Nat

/-- The fact-extraction pass of `handle_new_head` over the oldest-first
block list: on the first `imported_block_info` failure, issue the
finality race-check (`FinalizedBlockHash` at the failing block's height,
compared against the failing block's hash), emit the warning only when
the race was not lost, and abort. -/
def extract_blocks (env : CryptoEnv) (oracle : RuntimeOracle) (chain : ChainOracle)
    (finalizedNumber : Option BlockNumber) :
    List (Hash × Header) → Except (List Action) (List (Hash × Header × ImportedBlockInfo))
  | [] => Except.ok []
  | (blockHash, blockHeader) :: rest =>
    match imported_block_info env oracle blockHash blockHeader finalizedNumber with
    | Except.ok i =>
      match extract_blocks env oracle chain finalizedNumber rest with
      | Except.ok tl => Except.ok ((blockHash, blockHeader, i) :: tl)
      | Except.error acts => Except.error acts
    | Except.error _ =>
      let lostToFinality : Bool :=
        match chain.finalizedBlockHash blockHeader.number with
        | OResult.ok (some h) => decide (h ≠ blockHash)
        | _ => false
      Except.error (if lostToFinality then [] else [Action.warnSkipping blockHash])

/-- Outcome of the write pass: either aborted mid-loop on a session-info
miss (`return Ok(Vec::new())`, keeping the overlay writes made so far), or
completed with the accumulated metas and results. -/
inductive ProcessOutcome where
  | aborted (db : DB) (trace : List Action)
  | done (db : DB) (trace : List Action)
      (metas : List BlockApprovalMeta) (res : List BlockImportedCandidates)
deriving DecidableEq

/-- The `v3::BlockEntry` value `handle_new_head` writes for one extracted
block. -/
def blockEntryOf (blockHash : Hash) (blockHeader : Header) (info : ImportedBlockInfo)
    (sessionInfo : SessionInfo) : BlockEntry :=
  { blockHash := blockHash
    parentHash := blockHeader.parentHash
    blockNumber := blockHeader.number
    session := info.sessionIndex
    slot := info.slot
    relayVrfStory := info.relayVrfStory
    candidates := info.includedCandidates.map fun c => (c.2.1, c.1)
    approvedBitfield :=
      computeApprovedBitfield sessionInfo.neededApprovals info.nValidators
        (sessionInfo.validatorGroups.map List.length) info.includedCandidates
    children := [] }

/-- The write pass of `handle_new_head`: per extracted block, resolve the
session info (at the `head` hash, as the source does), build the approved
bitfield, send `Approved` when all bits are set, write the block entry,
run the force-approve cascade when a directive is present and send
`Approved` for each newly approved hash, and accumulate the approval meta
and result entries. -/
def process_blocks (state : ImportState) (oracle : RuntimeOracle) (head : Hash) :
    DB → List Action → List BlockApprovalMeta → List BlockImportedCandidates →
    List (Hash × Header × ImportedBlockInfo) → ProcessOutcome
  | db, trace, metas, res, [] => ProcessOutcome.done db trace metas res
  | db, trace, metas, res, (blockHash, blockHeader, info) :: rest =>
    match oracle.sessionInfo head info.sessionIndex with
    | none => ProcessOutcome.aborted db trace
    | some sessionInfo =>
      let blockTick := state.slotNumberToTick state.slotDurationMillis info.slot
      let neededApprovals := sessionInfo.neededApprovals
      let validatorGroupLens := sessionInfo.validatorGroups.map List.length
      let approvedBitfield :=
        computeApprovedBitfield neededApprovals info.nValidators validatorGroupLens
          info.includedCandidates
      let approveNow : List Action :=
        if countOnes approvedBitfield = approvedBitfield.length then
          [Action.sendApproved blockHash]
        else []
      let written := add_block_entry db (blockEntryOf blockHash blockHeader info sessionInfo)
      let cascade :=
        match info.forceApprove with
        | some upTo =>
          let fr := force_approve written.1 blockHash upTo
          (fr.1, fr.2.map Action.sendApproved)
        | none => (written.1, [])
      let meta : BlockApprovalMeta :=
        { hash := blockHash
          number := blockHeader.number
          parentHash := blockHeader.parentHash
          candidates := info.includedCandidates
          slot := info.slot
          session := info.sessionIndex
          vrfStory := info.relayVrfStory }
      let bic : BlockImportedCandidates :=
        { blockHash := blockHash
          blockNumber := blockHeader.number
          blockTick := blockTick
          importedCandidates := written.2 }
      process_blocks state oracle head cascade.1
        (trace ++ approveNow ++ [Action.addBlock blockHash] ++ cascade.2)
        (metas ++ [meta]) (res ++ [bic]) rest

/-- What `handle_new_head` produces: the returned
`Vec<BlockImportedCandidates>`, the final overlay, and the ordered trace
of observable actions. -/
structure HandleNewHeadOutput where
  result : List BlockImportedCandidates
  db : DB
  trace : List Action
deriving DecidableEq

/-- The orchestrator `handle_new_head`.  The external helper `determine_new_blocks` (not
under `src/`) is passed in as a function of the is-known predicate, the
head, its header and the lower bound; it returns the newest-first block
list.  A cancelled header oneshot or a `determine_new_blocks` error
propagates as the subsystem error (`Except.error`); a chain-API error or
a missing header returns the empty result. -/
def handle_new_head (state : ImportState) (chain : ChainOracle) (oracle : RuntimeOracle)
    (determineNewBlocks :
      (Hash → Bool) → Hash → Header → BlockNumber → Except Unit (List (Hash × Header)))
    (db : DB) (head : Hash) (finalizedNumber : Option BlockNumber) :
    Except Unit HandleNewHeadOutput :=
  match chain.blockHeader head with
  | OResult.cancelled => Except.error ()
  | OResult.runtimeError => Except.ok ⟨[], db, []⟩
  | OResult.ok none => Except.ok ⟨[], db, []⟩
  | OResult.ok (some header) =>
    match determineNewBlocks (fun h => (lookupDB db h).isSome) head header
        (lower_bound_number header.number finalizedNumber) with
    | Except.error _ => Except.error ()
    | Except.ok newBlocks =>
      if newBlocks.isEmpty then Except.ok ⟨[], db, []⟩
      else
        match extract_blocks state.crypto oracle chain finalizedNumber newBlocks.reverse with
        | Except.error acts => Except.ok ⟨[], db, acts⟩
        | Except.ok infos =>
          match process_blocks state oracle head db [] [] [] infos with
          | ProcessOutcome.aborted db' trace => Except.ok ⟨[], db', trace⟩
          | ProcessOutcome.done db' trace metas res =>
              Except.ok ⟨res, db', trace ++ [Action.sendNewBlocks metas]⟩

/-! ## Concrete instances (used by witnesses and counterexamples) -/

/-- A crypto environment whose randomness computation always succeeds
(returning the VRF output itself) and which produces no assignments. -/
def testCrypto : CryptoEnv where
  computeRandomness := fun v _ => Except.ok v.vrfOutput
  computeAssignments := fun _ _ _ => []

/-- A concrete `ImportState` for witness runs. -/
def testState : ImportState where
  crypto := testCrypto
  slotDurationMillis := 6000
  slotNumberToTick := fun _ s => s

/-- A concrete header for block hash `10`: number 5, parent `9`, empty
digest, VRF pre-commitment present. -/
def testHeader : Header where
  parentHash := 9
  number := 5
  digest := []
  unsafeVrf := some ⟨7, 42⟩

/-- A concrete header for an already-finalized block hash `1`: number 1,
below the test finalized height 3. -/
def testOldHeader : Header where
  parentHash := 0
  number := 1
  digest := []
  unsafeVrf := some ⟨3, 41⟩

/-- A concrete header with no VRF pre-commitment. -/
def testNoVrfHeader : Header where
  parentHash := 9
  number := 5
  digest := []
  unsafeVrf := none

/-- A concrete runtime oracle: no candidate events, session index 1,
a fixed epoch, one session with two validators in two singleton groups
and needed-approval count 0. -/
def testOracle : RuntimeOracle where
  candidateEvents := fun _ => OResult.ok []
  sessionIndexForChild := fun _ => OResult.ok 1
  currentBabeEpoch := fun _ => OResult.ok ⟨[], 0, 0⟩
  sessionInfo := fun _ _ =>
    some { validators := [1, 2], validatorGroups := [[1], [2]], neededApprovals := 0 }
  extendedSessionInfo := fun _ _ => some ⟨[]⟩

/-- A concrete chain oracle serving `testHeader` for head `10`; the
finalized hash at every height is `999` (a hash different from every
block in the test batches, so a failing block always loses the finality
race). -/
def testChain : ChainOracle where
  blockHeader := fun h => if h = 10 then OResult.ok (some testHeader) else OResult.ok none
  finalizedBlockHash := fun _ => OResult.ok (some 999)

/-- A `determine_new_blocks` stand-in returning the single head block. -/
def testDnbSingle : (Hash → Bool) → Hash → Header → BlockNumber →
    Except Unit (List (Hash × Header)) :=
  fun _ _ header _ => Except.ok [(10, header)]

/-- A `determine_new_blocks` stand-in returning head block `10` and, older
than it, the already-finalized block `1` (newest first, as the source's
`determine_new_blocks` does). -/
def testDnbWithOld : (Hash → Bool) → Hash → Header → BlockNumber →
    Except Unit (List (Hash × Header)) :=
  fun _ _ header _ => Except.ok [(10, header), (1, testOldHeader)]

/-- A `determine_new_blocks` stand-in returning head block `10` and, older
than it, the VRF-less block `2`. -/
def testDnbWithNoVrf : (Hash → Bool) → Hash → Header → BlockNumber →
    Except Unit (List (Hash × Header)) :=
  fun _ _ header _ => Except.ok [(10, header), (2, testNoVrfHeader)]

/-- Chain fixture A→B→C→D for the force-approve cascade: block entry A
(hash 1, number 1). -/
def entryA : BlockEntry := ⟨1, 0, 1, 1, 1, 0, [(0, 11)], [false], []⟩

/-- Chain fixture: block entry B (hash 2, number 2, parent A). -/
def entryB : BlockEntry := ⟨2, 1, 2, 1, 2, 0, [(0, 12)], [false], []⟩

/-- Chain fixture: block entry C (hash 3, number 3, parent B). -/
def entryC : BlockEntry := ⟨3, 2, 3, 1, 3, 0, [(0, 13)], [false], []⟩

/-- Chain fixture: block entry D (hash 4, number 4, parent C). -/
def entryD : BlockEntry := ⟨4, 3, 4, 1, 4, 0, [(0, 14)], [false], []⟩

/-- The stored chain A→B→C→D, none of it approved yet. -/
def chainDB : DB := [(1, entryA), (2, entryB), (3, entryC), (4, entryD)]

/-- Action `a` occurs strictly before `b` in the trace `tr`. -/
def Precedes (a b : Action) (tr : List Action) : Prop :=
  ∃ t₁ t₂ t₃, tr = t₁ ++ a :: t₂ ++ b :: t₃

/-- The action trace carried by either outcome of the write pass. -/
def outcomeTrace : ProcessOutcome → List Action
  | ProcessOutcome.aborted _ t => t
  | ProcessOutcome.done _ t _ _ => t

/-- Success test for `Except` (spelled out to keep the statements self-contained). -/
def exceptOk {ε α : Type} : Except ε α → Bool
  | Except.ok _ => true
  | Except.error _ => false

/-! ## General lemmas -/

/-- Characterisation of the bit-setting fold of `computeApprovedBitfield`:
folding `set`-if-condition over an enumerated list touches index `j`
exactly at the enumeration entry numbered `j`. -/
theorem foldl_setIf_getElem {T : Type} (cond : T → Bool) :
    ∀ (l : List T) (k j : Nat) (acc : List Bool),
      ((l.enumFrom k).foldl (fun r p => if cond p.2 then r.set p.1 true else r) acc)[j]? =
        match l[j - k]? with
        | some c => if k ≤ j ∧ j < acc.length ∧ cond c then some true else acc[j]?
        | none => acc[j]?
  | [], k, j, acc => by simp [List.enumFrom]
  | c :: l', k, j, acc => by
    have hrec := foldl_setIf_getElem cond l' (k + 1) j (if cond c then acc.set k true else acc)
    have hlen : (if cond c then acc.set k true else acc).length = acc.length := by
      by_cases hc : cond c <;> simp [hc]
    have hstep : ((c :: l').enumFrom k).foldl (fun r p => if cond p.2 then r.set p.1 true else r) acc
        = (l'.enumFrom (k + 1)).foldl (fun r p => if cond p.2 then r.set p.1 true else r)
            (if cond c then acc.set k true else acc) := by
      simp [List.enumFrom]
    rw [hstep, hrec]
    rcases Nat.lt_trichotomy j k with hjk | hjk | hjk
    · -- j < k : untouched on both sides
      have h0 : j - k = 0 := Nat.sub_eq_zero_of_le (Nat.le_of_lt hjk)
      have h1 : j - (k + 1) = 0 := Nat.sub_eq_zero_of_le (by omega)
      have hne : k ≠ j := by omega
      have hacc : (if cond c then acc.set k true else acc)[j]? = acc[j]? := by
        by_cases hc : cond c <;> simp [hc, List.getElem?_set_ne hne]
      rw [h0, h1]
      have hneg : ¬(k ≤ j ∧ j < acc.length ∧ cond c = true) := fun hh => absurd hh.1 (by omega)
      cases l' with
      | nil =>
        simp only [List.getElem?_cons_zero, List.getElem?_nil]
        rw [if_neg hneg]
        exact hacc
      | cons c' l'' =>
        have hneg' : ¬(k + 1 ≤ j ∧ j < (if cond c then acc.set k true else acc).length ∧
            cond c' = true) := fun hh => absurd hh.1 (by omega)
        simp only [List.getElem?_cons_zero]
        rw [if_neg hneg, if_neg hneg']
        exact hacc
    · -- j = k : this step's set decides the bit
      have h0 : j - k = 0 := by omega
      have h1 : j - (k + 1) = 0 := by omega
      rw [h0, h1]
      have hupd : (if cond c then acc.set k true else acc)[j]? =
        if k ≤ j ∧ j < acc.length ∧ cond c = true then some true else acc[j]? := by
        by_cases hc : cond c
        · by_cases hj : j < acc.length
          · have hpos : k ≤ j ∧ j < acc.length ∧ cond c = true := ⟨by omega, hj, hc⟩
            rw [if_pos hpos, if_pos hc, hjk]
            exact List.getElem?_set_eq (by omega)
          · have hneg : ¬(k ≤ j ∧ j < acc.length ∧ cond c = true) :=
              fun hh => absurd hh.2.1 hj
            rw [if_neg hneg, if_pos hc,
                List.getElem?_eq_none (l := acc.set k true) (by simp; omega),
                List.getElem?_eq_none (by omega)]
        · have hneg : ¬(k ≤ j ∧ j < acc.length ∧ cond c = true) :=
            fun hh => absurd hh.2.2 hc
          rw [if_neg hneg, if_neg hc]
      cases l' with
      | nil =>
        simp only [List.getElem?_cons_zero, List.getElem?_nil]
        exact hupd
      | cons c' l'' =>
        have hneg' : ¬(k + 1 ≤ j ∧ j < (if cond c then acc.set k true else acc).length ∧
            cond c' = true) := fun hh => absurd hh.1 (by omega)
        simp only [List.getElem?_cons_zero]
        rw [if_neg hneg']
        exact hupd
    · -- k < j : this index is handled deeper in the list
      have hne : k ≠ j := by omega
      have hsub : j - k = (j - (k + 1)) + 1 := by omega
      have hacc : (if cond c then acc.set k true else acc)[j]? = acc[j]? := by
        by_cases hc : cond c <;> simp [hc, List.getElem?_set_ne hne]
      rw [hsub, List.getElem?_cons_succ]
      cases hl : l'[j - (k + 1)]? with
      | none => simp only [hl, hacc]
      | some c' =>
        simp only [hl, hacc, hlen]
        have hiff : (k + 1 ≤ j ∧ j < acc.length ∧ cond c' = true) ↔
            (k ≤ j ∧ j < acc.length ∧ cond c' = true) := by
          constructor <;> rintro ⟨hh1, hh2, hh3⟩ <;> exact ⟨by omega, hh2, hh3⟩
        rw [if_congr hiff rfl rfl]

/-- The bit-setting fold preserves the bitfield length. -/
theorem foldl_setIf_length {T : Type} (cond : T → Bool) :
    ∀ (el : List (Nat × T)) (acc : List Bool),
      (el.foldl (fun r p => if cond p.2 then r.set p.1 true else r) acc).length = acc.length
  | [], _ => rfl
  | p :: el', acc => by
    rw [List.foldl_cons, foldl_setIf_length cond el']
    by_cases hc : cond p.2 <;> simp [hc]

/-- The approved bitfield has one bit per included candidate. -/
theorem computeApprovedBitfield_length (na nv : Nat) (lens : List Nat)
    (cands : List (Nat × Nat × Nat)) :
    (computeApprovedBitfield na nv lens cands).length = cands.length := by
  unfold computeApprovedBitfield
  by_cases hna : na = 0
  · simp [hna]
  · rw [if_neg hna]
    have h := foldl_setIf_length (fun c => instaApprovalCond na nv lens c.2.2)
      cands.enum (List.replicate cands.length false)
    exact h.trans (List.length_replicate _ _)

/-- With a nonzero needed-approval count, bit `j` of the approved bitfield
is exactly the insta-approval condition of candidate `j`'s backing group. -/
theorem computeApprovedBitfield_getElem (na nv : Nat) (lens : List Nat)
    (cands : List (Nat × Nat × Nat)) (hna : na ≠ 0) (j : Nat) (hj : j < cands.length) :
    (computeApprovedBitfield na nv lens cands)[j]? =
      some (instaApprovalCond na nv lens cands[j].2.2) := by
  have h := foldl_setIf_getElem (fun c => instaApprovalCond na nv lens c.2.2) cands 0 j
    (List.replicate cands.length false)
  simp only [Nat.sub_zero, List.getElem?_eq_getElem hj, List.length_replicate] at h
  unfold computeApprovedBitfield
  rw [if_neg hna]
  refine h.trans ?_
  by_cases hc : instaApprovalCond na nv lens cands[j].2.2
  · rw [if_pos ⟨Nat.zero_le j, hj, hc⟩, hc]
  · rw [if_neg (fun hh => absurd hh.2.2 hc), List.getElem?_replicate_of_lt hj]
    rw [Bool.not_eq_true] at hc
    rw [hc]

/-! ## Claim theorems -/

/-- C1: the approved bitfield built by `handle_new_head` has one bit per
included work item; if the session's needed-approval count is zero every
bit is set; otherwise bit `j` is set iff
`(total validators − backing-group size of item j) < needed_approvals`
with saturating subtraction; and with 6 validators, groups of sizes 5 and
2 and needed-approval count 2, two items backed by groups 0 and 1 yield
the bitfield `[true, false]`. -/
theorem claim_C1 (neededApprovals nValidators : Nat) (validatorGroupLens : List Nat)
    (cands : List (Nat × Nat × Nat)) :
    (computeApprovedBitfield neededApprovals nValidators validatorGroupLens cands).length
        = cands.length
    ∧ (neededApprovals = 0 → ∀ j, j < cands.length →
        (computeApprovedBitfield neededApprovals nValidators validatorGroupLens cands)[j]?
          = some true)
    ∧ (neededApprovals ≠ 0 → ∀ j, ∀ hj : j < cands.length,
        ((computeApprovedBitfield neededApprovals nValidators validatorGroupLens cands)[j]?
            = some true
          ↔ nValidators - ((validatorGroupLens.get? cands[j].2.2).getD 0) < neededApprovals))
    ∧ computeApprovedBitfield 2 6 [5, 2] [(100, 0, 0), (101, 1, 1)] = [true, false] := by
  refine ⟨computeApprovedBitfield_length _ _ _ _, ?_, ?_, by decide⟩
  · intro h0 j hj
    unfold computeApprovedBitfield
    rw [if_pos h0]
    exact List.getElem?_replicate_of_lt hj
  · intro hna j hj
    rw [computeApprovedBitfield_getElem neededApprovals nValidators validatorGroupLens
      cands hna j hj]
    unfold instaApprovalCond
    simp only [List.get?_eq_getElem?]
    constructor
    · intro h
      have := Option.some.inj h
      simpa using this
    · intro h
      simp [h]

/-- Witness for C1 at the spec's end-to-end scenario: item 0 backed by
group 0 of size 5 among 6 validators with needed-approval count 2 is
insta-approved. -/
theorem claim_C1_witness :
    (computeApprovedBitfield 2 6 [5, 2] [(100, 0, 0), (101, 1, 1)])[0]? = some true :=
  ((claim_C1 2 6 [5, 2] [(100, 0, 0), (101, 1, 1)]).2.2.1 (by decide) 0 (by decide)).mpr
    (by decide)

/-- C10: a work item whose backing-group index is out of range of the
validator-group list gets a defaulted group size of zero (the lookup
returns no value), so its bit is set iff the total validator count is
below the needed-approval count. -/
theorem claim_C10 (neededApprovals nValidators : Nat) (validatorGroupLens : List Nat)
    (cands : List (Nat × Nat × Nat)) (hna : neededApprovals ≠ 0)
    (j : Nat) (hj : j < cands.length)
    (hoob : validatorGroupLens.length ≤ cands[j].2.2) :
    validatorGroupLens.get? cands[j].2.2 = none
    ∧ ((computeApprovedBitfield neededApprovals nValidators validatorGroupLens cands)[j]?
          = some true
        ↔ nValidators < neededApprovals) := by
  have hnone : validatorGroupLens.get? cands[j].2.2 = none := List.get?_eq_none.mpr hoob
  refine ⟨hnone, ?_⟩
  rw [computeApprovedBitfield_getElem neededApprovals nValidators validatorGroupLens
    cands hna j hj]
  unfold instaApprovalCond
  rw [hnone]
  constructor
  · intro h
    have := Option.some.inj h
    simpa using this
  · intro h
    simp [h]

/-- Witness for C10: one validator, an empty group list, needed-approval
count 2, one candidate claiming group 7 — the bit is set because
`1 < 2`. -/
theorem claim_C10_witness :
    (computeApprovedBitfield 2 1 [] [(0, 0, 7)])[0]? = some true :=
  ((claim_C10 2 1 [] [(0, 0, 7)] (by decide) 0 (by decide) (by decide)).2).mpr (by decide)

/-- C9: the lower bound handed to ancestry reconciliation is
`max finalized (head − MAX_FINALITY_LAG)` when the finalized height is
known, and `head − MAX_FINALITY_LAG` (saturating) when it is not; and
`handle_new_head` consults `determine_new_blocks` only at exactly this
bound (with the is-known predicate, the head and its header). -/
theorem claim_C9 (headNumber : Nat) (finalizedNumber : Option Nat) :
    (∀ f, finalizedNumber = some f →
      lower_bound_number headNumber finalizedNumber = max f (headNumber - MAX_FINALITY_LAG))
    ∧ (finalizedNumber = none →
      lower_bound_number headNumber finalizedNumber = headNumber - MAX_FINALITY_LAG)
    ∧ (∀ (state : ImportState) (chain : ChainOracle) (oracle : RuntimeOracle)
        (dnb₁ dnb₂ : (Hash → Bool) → Hash → Header → BlockNumber →
          Except Unit (List (Hash × Header)))
        (db : DB) (head : Hash),
        (∀ header, chain.blockHeader head = OResult.ok (some header) →
          dnb₁ (fun h => (lookupDB db h).isSome) head header
              (lower_bound_number header.number finalizedNumber)
            = dnb₂ (fun h => (lookupDB db h).isSome) head header
              (lower_bound_number header.number finalizedNumber)) →
        handle_new_head state chain oracle dnb₁ db head finalizedNumber
          = handle_new_head state chain oracle dnb₂ db head finalizedNumber) := by
  refine ⟨?_, ?_, ?_⟩
  · intro f hf
    simp [lower_bound_number, hf]
  · intro hf
    simp [lower_bound_number, hf]
  · intro state chain oracle dnb₁ dnb₂ db head hagree
    unfold handle_new_head
    cases hh : chain.blockHeader head with
    | ok oh =>
      cases oh with
      | none => rfl
      | some header => simp only [hagree header hh]
    | runtimeError => rfl
    | cancelled => rfl

/-- Witness for C9 at finalized height 3 and head number 5 (the look-back
constant dominates neither side: `5 − 500 = 0` saturating, max is 3). -/
theorem claim_C9_witness :
    lower_bound_number 5 (some 3) = max 3 (5 - MAX_FINALITY_LAG)
    ∧ lower_bound_number 5 none = 5 - MAX_FINALITY_LAG
    ∧ handle_new_head testState testChain testOracle testDnbSingle [] 10 (some 3)
        = handle_new_head testState testChain testOracle testDnbSingle [] 10 (some 3) :=
  ⟨(claim_C9 5 (some 3)).1 3 rfl,
   (claim_C9 5 none).2.1 rfl,
   (claim_C9 10 (some 3)).2.2 testState testChain testOracle testDnbSingle testDnbSingle []
     10 (fun _ _ => rfl)⟩

/-- The helper `convert_first` returns `some b` exactly when the list splits around a
first element mapped to `some b`, everything before it mapping to
`none`. -/
theorem convert_first_eq_some {α β : Type} (f : α → Option β) (b : β) :
    ∀ l : List α,
      (convert_first f l = some b ↔
        ∃ pre x post, l = pre ++ x :: post ∧ f x = some b ∧ ∀ y ∈ pre, f y = none)
  | [] => by
    constructor
    · intro h
      simp [convert_first] at h
    · rintro ⟨pre, x, post, hl, -, -⟩
      exact absurd hl (by simp)
  | a :: l' => by
    constructor
    · intro h
      unfold convert_first at h
      cases hfa : f a with
      | some b' =>
        rw [hfa] at h
        exact ⟨[], a, l', by simp, by rw [hfa]; exact h, by simp⟩
      | none =>
        rw [hfa] at h
        obtain ⟨pre, x, post, hl, hx, hpre⟩ := (convert_first_eq_some f b l').mp h
        refine ⟨a :: pre, x, post, by simp [hl], hx, ?_⟩
        intro y hy
        rcases List.mem_cons.mp hy with rfl | hy'
        · exact hfa
        · exact hpre y hy'
    · rintro ⟨pre, x, post, hl, hx, hpre⟩
      cases pre with
      | nil =>
        simp only [List.nil_append] at hl
        injection hl with h1 h2
        subst h1; subst h2
        unfold convert_first
        rw [hx]
      | cons p pre' =>
        rw [List.cons_append] at hl
        injection hl with h1 h2
        subst h1
        unfold convert_first
        rw [hpre a (by simp)]
        exact (convert_first_eq_some f b l').mpr
          ⟨pre', x, post, h2, hx, fun y hy => hpre y (List.mem_cons_of_mem _ hy)⟩

/-- The digest closure honors exactly the well-formed force-approve
entries with height below the block's number. -/
theorem forceApproveOfLog_eq_some (number : BlockNumber) (lg : DigestLog) (n : BlockNumber) :
    forceApproveOfLog number lg = some n ↔
      lg = DigestLog.forceApproveLog n ∧ n < number := by
  cases lg with
  | forceApproveLog m =>
    simp only [forceApproveOfLog, DigestLog.forceApproveLog.injEq]
    by_cases hm : m < number
    · rw [if_pos hm]
      simp only [Option.some.injEq]
      constructor
      · rintro rfl
        exact ⟨rfl, hm⟩
      · rintro ⟨rfl, -⟩
        rfl
    · rw [if_neg hm]
      constructor
      · intro h
        exact absurd h (by simp)
      · rintro ⟨rfl, hn⟩
        exact absurd hn hm
  | otherLog => simp [forceApproveOfLog]
  | noLog => simp [forceApproveOfLog]
  | malformed => simp [forceApproveOfLog]

/-- The digest influences only the extracted force-approve directive:
whether `imported_block_info` succeeds is unchanged when the digest is
replaced (in particular, malformed digest entries never fail it). -/
theorem imported_block_info_isOk_digest (env : CryptoEnv) (oracle : RuntimeOracle)
    (blockHash : Hash) (header : Header) (lfh : Option BlockNumber) (d' : List DigestLog) :
    exceptOk (imported_block_info env oracle blockHash { header with digest := d' } lfh)
      = exceptOk (imported_block_info env oracle blockHash header lfh) := by
  unfold imported_block_info
  simp only []
  cases oracle.candidateEvents blockHash with
  | runtimeError => rfl
  | cancelled => rfl
  | ok events =>
    simp only []
    cases oracle.sessionIndexForChild header.parentHash with
    | runtimeError => rfl
    | cancelled => rfl
    | ok sessionIndex =>
      simp only []
      by_cases hfin : (match lfh with
          | some finalized => decide (header.number < finalized)
          | none => false) = true
      · rw [if_pos hfin, if_pos hfin]
      · rw [if_neg hfin, if_neg hfin]
        cases oracle.currentBabeEpoch blockHash with
        | runtimeError => rfl
        | cancelled => rfl
        | ok babeEpoch =>
          simp only []
          cases oracle.sessionInfo blockHash sessionIndex with
          | none => rfl
          | some sessionInfo =>
            simp only []
            cases header.unsafeVrf with
            | none => rfl
            | some unsafeVrf =>
              simp only []
              cases env.computeRandomness unsafeVrf babeEpoch with
              | error e => rfl
              | ok relayVrf => rfl

/-- C7: the extracted force-approve directive is the first force-approve
digest entry whose height is strictly below the block's number; entries
with height at or above the number are passed over, and replacing the
digest (e.g. by malformed entries) never changes whether fact extraction
succeeds. -/
theorem claim_C7 (header : Header) :
    (∀ n, extractForceApprove header = some n ↔
        (n < header.number ∧ ∃ pre post,
          header.digest = pre ++ DigestLog.forceApproveLog n :: post ∧
          ∀ m, DigestLog.forceApproveLog m ∈ pre → ¬ m < header.number))
    ∧ (∀ (env : CryptoEnv) (oracle : RuntimeOracle) (blockHash : Hash)
        (lfh : Option BlockNumber) (d' : List DigestLog),
        exceptOk (imported_block_info env oracle blockHash { header with digest := d' } lfh)
          = exceptOk (imported_block_info env oracle blockHash header lfh)) := by
  constructor
  · intro n
    unfold extractForceApprove
    rw [convert_first_eq_some]
    constructor
    · rintro ⟨pre, x, post, hl, hx, hpre⟩
      obtain ⟨rfl, hn⟩ := (forceApproveOfLog_eq_some header.number x n).mp hx
      refine ⟨hn, pre, post, hl, ?_⟩
      intro m hm hmlt
      have h2 := hpre _ hm
      simp only [forceApproveOfLog, if_pos hmlt] at h2
      exact Option.noConfusion h2
    · rintro ⟨hn, pre, post, hl, hpre⟩
      refine ⟨pre, _, post, hl, (forceApproveOfLog_eq_some _ _ _).mpr ⟨rfl, hn⟩, ?_⟩
      intro y hy
      cases y with
      | forceApproveLog m =>
        have hnm := hpre m hy
        simp only [forceApproveOfLog, if_neg hnm]
      | otherLog => rfl
      | noLog => rfl
      | malformed => rfl
  · exact fun env oracle blockHash lfh d' =>
      imported_block_info_isOk_digest env oracle blockHash header lfh d'

/-- Witness for C7: in a digest `[malformed, force-approve 7,
force-approve 3, force-approve 2]` under block number 5, the extracted
directive is the first qualifying entry, 3; and swapping `testHeader`'s
digest for a malformed one leaves extraction success unchanged. -/
theorem claim_C7_witness :
    extractForceApprove ⟨9, 5, [DigestLog.malformed, DigestLog.forceApproveLog 7,
        DigestLog.forceApproveLog 3, DigestLog.forceApproveLog 2], some ⟨7, 42⟩⟩ = some 3
    ∧ exceptOk (imported_block_info testCrypto testOracle 10
          { testHeader with digest := [DigestLog.malformed] } none)
        = exceptOk (imported_block_info testCrypto testOracle 10 testHeader none) :=
  ⟨((claim_C7 _).1 3).mpr ⟨by decide,
      [DigestLog.malformed, DigestLog.forceApproveLog 7], [DigestLog.forceApproveLog 2], rfl,
      by
        intro m hm hlt
        simp at hm
        subst hm
        exact absurd hlt (by decide)⟩,
    (claim_C7 testHeader).2 testCrypto testOracle 10 none [DigestLog.malformed]⟩

/-- C6: fact extraction reads the session index only at the block's
parent hash and the randomness-epoch record only at the block's own hash
(its result is invariant under oracles agreeing at exactly those points),
and a successful extraction carries the session index answered for the
parent hash. -/
theorem claim_C6 (env : CryptoEnv) (o₁ o₂ : RuntimeOracle) (blockHash : Hash)
    (header : Header) (lfh : Option BlockNumber)
    (hsess : o₁.sessionIndexForChild header.parentHash
      = o₂.sessionIndexForChild header.parentHash)
    (hepoch : o₁.currentBabeEpoch blockHash = o₂.currentBabeEpoch blockHash)
    (hev : o₁.candidateEvents = o₂.candidateEvents)
    (hinfo : o₁.sessionInfo = o₂.sessionInfo)
    (hext : o₁.extendedSessionInfo = o₂.extendedSessionInfo) :
    imported_block_info env o₁ blockHash header lfh
        = imported_block_info env o₂ blockHash header lfh
    ∧ (∀ si, o₁.sessionIndexForChild header.parentHash = OResult.ok si →
        ∀ info, imported_block_info env o₁ blockHash header lfh = Except.ok info →
          info.sessionIndex = si) := by
  constructor
  · unfold imported_block_info
    rw [hev, hsess, hepoch, hinfo, hext]
  · intro si hsi' info hok
    unfold imported_block_info at hok
    rw [hsi'] at hok
    simp only [] at hok
    repeat' split at hok
    all_goals try exact Except.noConfusion hok
    all_goals simp only [Except.ok.injEq] at hok
    all_goals rw [← hok]

/-- Witness for C6 on the concrete test oracle: the extracted session
index equals the oracle's `SessionIndexForChild` answer, 1. -/
theorem claim_C6_witness :
    ({ includedCandidates := [], sessionIndex := 1, assignments := [], nValidators := 2,
        relayVrfStory := 42, slot := 7, forceApprove := none } : ImportedBlockInfo).sessionIndex
      = 1 :=
  (claim_C6 testCrypto testOracle testOracle 10 testHeader none rfl rfl rfl rfl rfl).2
    1 rfl _ rfl

/-- The race-check trace of the extraction pass: empty when the failing
block lost the race to finality (a different hash is finalized at its
height), otherwise the warning. -/
def raceTrace (chain : ChainOracle) (bh : Hash) (hdr : Header) : List Action :=
  if (match chain.finalizedBlockHash hdr.number with
      | OResult.ok (some h) => decide (h ≠ bh)
      | _ => false) then [] else [Action.warnSkipping bh]

/-- If every block before some position extracts successfully and the
block there fails, the extraction pass aborts with the race-checked
trace. -/
theorem extract_blocks_append_error (env : CryptoEnv) (oracle : RuntimeOracle)
    (chain : ChainOracle) (lfh : Option BlockNumber) :
    ∀ (pre : List (Hash × Header)) (bh : Hash) (hdr : Header) (rest : List (Hash × Header)),
      (∀ p ∈ pre, exceptOk (imported_block_info env oracle p.1 p.2 lfh) = true) →
      (∀ info, imported_block_info env oracle bh hdr lfh ≠ Except.ok info) →
      extract_blocks env oracle chain lfh (pre ++ (bh, hdr) :: rest)
        = Except.error (raceTrace chain bh hdr)
  | [], bh, hdr, rest, hpre, hfail => by
    rw [List.nil_append]
    unfold extract_blocks
    cases hres : imported_block_info env oracle bh hdr lfh with
    | ok i => exact absurd hres (hfail i)
    | error e => rfl
  | (ph, phdr) :: pre', bh, hdr, rest, hpre, hfail => by
    rw [List.cons_append]
    unfold extract_blocks
    cases hres : imported_block_info env oracle ph phdr lfh with
    | error e =>
      have h1 := hpre (ph, phdr) (by simp)
      rw [hres] at h1
      exact absurd h1 (by simp [exceptOk])
    | ok i =>
      rw [extract_blocks_append_error env oracle chain lfh pre' bh hdr rest
        (fun q hq => hpre q (by simp [hq])) hfail]

/-- When fact extraction fails on the first failing block of a batch,
`handle_new_head` returns the empty result, leaves the overlay exactly as
it was, and emits only the race-checked trace. -/
theorem handle_new_head_extract_fail (state : ImportState) (chain : ChainOracle)
    (oracle : RuntimeOracle)
    (dnb : (Hash → Bool) → Hash → Header → BlockNumber → Except Unit (List (Hash × Header)))
    (db : DB) (head : Hash) (fin : Option BlockNumber) (header : Header)
    (newBlocks pre rest : List (Hash × Header)) (bh : Hash) (hdr : Header)
    (hheader : chain.blockHeader head = OResult.ok (some header))
    (hdnb : dnb (fun h => (lookupDB db h).isSome) head header
        (lower_bound_number header.number fin) = Except.ok newBlocks)
    (hsplit : newBlocks.reverse = pre ++ (bh, hdr) :: rest)
    (hpre : ∀ p ∈ pre, exceptOk (imported_block_info state.crypto oracle p.1 p.2 fin) = true)
    (hfail : ∀ info, imported_block_info state.crypto oracle bh hdr fin ≠ Except.ok info) :
    handle_new_head state chain oracle dnb db head fin
      = Except.ok ⟨[], db, raceTrace chain bh hdr⟩ := by
  have hne : newBlocks.isEmpty = false := by
    cases hnb : newBlocks with
    | nil =>
      rw [hnb] at hsplit
      simp at hsplit
    | cons a l => rfl
  unfold handle_new_head
  rw [hheader]
  simp only []
  rw [hdnb]
  simp only [hne]
  rw [if_neg (by simp), hsplit,
    extract_blocks_append_error state.crypto oracle chain fin pre bh hdr rest hpre hfail]

/-- A header without a VRF pre-commitment can never extract
successfully. -/
theorem imported_block_info_noVrf (env : CryptoEnv) (oracle : RuntimeOracle)
    (blockHash : Hash) (header : Header) (lfh : Option BlockNumber)
    (hvrf : header.unsafeVrf = none) :
    ∀ info, imported_block_info env oracle blockHash header lfh ≠ Except.ok info := by
  intro info h
  unfold imported_block_info at h
  rw [hvrf] at h
  repeat' split at h
  all_goals simp_all

/-- A block whose number is below the known finalized height fails
extraction with `BlockAlreadyFinalized`, provided the candidate-events
and session-index exchanges succeed (the check sits after them). -/
theorem imported_block_info_finalized (env : CryptoEnv) (oracle : RuntimeOracle)
    (blockHash : Hash) (header : Header) (f : BlockNumber)
    (events : List CandidateEvent) (si : Nat)
    (hnum : header.number < f)
    (hev : oracle.candidateEvents blockHash = OResult.ok events)
    (hsess : oracle.sessionIndexForChild header.parentHash = OResult.ok si) :
    imported_block_info env oracle blockHash header (some f)
      = Except.error ImportedBlockInfoError.blockAlreadyFinalized := by
  unfold imported_block_info
  rw [hev]
  simp only []
  rw [hsess]
  simp only []
  rw [if_pos (by simp [hnum])]

/-- C3: when fact extraction fails for a block of the batch,
`handle_new_head` race-checks finality at the failing block's height
against its hash, returns the empty result with the overlay untouched (no
block record of the batch is staged), and the warning appears in the
trace exactly when the finalized hash at that height is the failing
block itself (the race was not lost). -/
theorem claim_C3 (state : ImportState) (chain : ChainOracle) (oracle : RuntimeOracle)
    (dnb : (Hash → Bool) → Hash → Header → BlockNumber → Except Unit (List (Hash × Header)))
    (db : DB) (head : Hash) (fin : Option BlockNumber) (header : Header)
    (newBlocks pre rest : List (Hash × Header)) (bh : Hash) (hdr : Header)
    (hheader : chain.blockHeader head = OResult.ok (some header))
    (hdnb : dnb (fun h => (lookupDB db h).isSome) head header
        (lower_bound_number header.number fin) = Except.ok newBlocks)
    (hsplit : newBlocks.reverse = pre ++ (bh, hdr) :: rest)
    (hpre : ∀ p ∈ pre, exceptOk (imported_block_info state.crypto oracle p.1 p.2 fin) = true)
    (hfail : ∃ e, imported_block_info state.crypto oracle bh hdr fin = Except.error e) :
    handle_new_head state chain oracle dnb db head fin
        = Except.ok ⟨[], db, raceTrace chain bh hdr⟩
    ∧ (∀ h, chain.finalizedBlockHash hdr.number = OResult.ok (some h) →
        raceTrace chain bh hdr = if h = bh then [Action.warnSkipping bh] else []) := by
  obtain ⟨e, he⟩ := hfail
  constructor
  · exact handle_new_head_extract_fail state chain oracle dnb db head fin header newBlocks
      pre rest bh hdr hheader hdnb hsplit hpre
      (fun info hi => by rw [he] at hi; exact Except.noConfusion hi)
  · intro h hfin
    unfold raceTrace
    rw [hfin]
    by_cases hbh : h = bh
    · simp [hbh]
    · simp [hbh]

/-- Witness for C3: a two-block batch whose older block lacks a VRF
pre-commitment aborts with the empty result, the overlay unchanged, and a
silent trace (the finalized hash 999 at that height differs from the
failing block's hash 2). -/
theorem claim_C3_witness :
    handle_new_head testState testChain testOracle testDnbWithNoVrf [] 10 (some 3)
      = Except.ok ⟨[], [], raceTrace testChain 2 testNoVrfHeader⟩ :=
  (claim_C3 testState testChain testOracle testDnbWithNoVrf [] 10 (some 3) testHeader
    [(10, testHeader), (2, testNoVrfHeader)] [] [(10, testHeader)] 2 testNoVrfHeader
    rfl rfl rfl (fun p hp => absurd hp (List.not_mem_nil p))
    ⟨ImportedBlockInfoError.vrfInfoUnavailable, rfl⟩).1

/-- C5: a block whose header lacks a VRF pre-commitment never extracts
successfully; when every exchange before the VRF step succeeds the error
kind is exactly `VrfInfoUnavailable`; and a batch containing such a block
(after successful predecessors) produces the empty result with the
overlay untouched — no record for the block is written. -/
theorem claim_C5 (env : CryptoEnv) (oracle : RuntimeOracle) (blockHash : Hash)
    (header : Header) (lfh : Option BlockNumber) (hvrf : header.unsafeVrf = none) :
    (∀ info, imported_block_info env oracle blockHash header lfh ≠ Except.ok info)
    ∧ (∀ (events : List CandidateEvent) (si : Nat) (epoch : BabeEpoch) (sinfo : SessionInfo),
        oracle.candidateEvents blockHash = OResult.ok events →
        oracle.sessionIndexForChild header.parentHash = OResult.ok si →
        (∀ f, lfh = some f → ¬ header.number < f) →
        oracle.currentBabeEpoch blockHash = OResult.ok epoch →
        oracle.sessionInfo blockHash si = some sinfo →
        imported_block_info env oracle blockHash header lfh
          = Except.error ImportedBlockInfoError.vrfInfoUnavailable)
    ∧ (∀ (state : ImportState) (chain : ChainOracle)
        (dnb : (Hash → Bool) → Hash → Header → BlockNumber →
          Except Unit (List (Hash × Header)))
        (db : DB) (head : Hash) (hd : Header) (newBlocks pre rest : List (Hash × Header)),
        state.crypto = env →
        chain.blockHeader head = OResult.ok (some hd) →
        dnb (fun h => (lookupDB db h).isSome) head hd
            (lower_bound_number hd.number lfh) = Except.ok newBlocks →
        newBlocks.reverse = pre ++ (blockHash, header) :: rest →
        (∀ p ∈ pre, exceptOk (imported_block_info env oracle p.1 p.2 lfh) = true) →
        handle_new_head state chain oracle dnb db head lfh
          = Except.ok ⟨[], db, raceTrace chain blockHash header⟩) := by
  refine ⟨imported_block_info_noVrf env oracle blockHash header lfh hvrf, ?_, ?_⟩
  · intro events si epoch sinfo hev hsess hnofin hepoch hsinfo
    unfold imported_block_info
    rw [hev]
    simp only []
    rw [hsess]
    simp only []
    cases lfh with
    | none =>
      rw [if_neg (by simp)]
      rw [hepoch]; simp only []; rw [hsinfo]; simp only []; rw [hvrf]
    | some f =>
      rw [if_neg (by simp [hnofin f rfl])]
      rw [hepoch]; simp only []; rw [hsinfo]; simp only []; rw [hvrf]
  · intro state chain dnb db head hd newBlocks pre rest hcrypto hheader hdnb hsplit hpre
    subst hcrypto
    exact handle_new_head_extract_fail state chain oracle dnb db head lfh hd newBlocks
      pre rest blockHash header hheader hdnb hsplit hpre
      (imported_block_info_noVrf state.crypto oracle blockHash header lfh hvrf)

/-- Witness for C5: block 2 with no VRF pre-commitment fails with
`VrfInfoUnavailable`, and the two-block batch containing it leaves the
overlay empty. -/
theorem claim_C5_witness :
    imported_block_info testCrypto testOracle 2 testNoVrfHeader (some 3)
        = Except.error ImportedBlockInfoError.vrfInfoUnavailable
    ∧ handle_new_head testState testChain testOracle testDnbWithNoVrf [] 10 (some 3)
        = Except.ok ⟨[], [], raceTrace testChain 2 testNoVrfHeader⟩ :=
  ⟨(claim_C5 testCrypto testOracle 2 testNoVrfHeader (some 3) rfl).2.1 [] 1 ⟨[], 0, 0⟩
      { validators := [1, 2], validatorGroups := [[1], [2]], neededApprovals := 0 }
      rfl rfl (fun f hf => by injection hf with h; subst h; decide) rfl rfl,
    (claim_C5 testCrypto testOracle 2 testNoVrfHeader (some 3) rfl).2.2 testState testChain
      testDnbWithNoVrf [] 10 testHeader [(10, testHeader), (2, testNoVrfHeader)] []
      [(10, testHeader)] rfl rfl rfl rfl (fun p hp => absurd hp (List.not_mem_nil p))⟩

/-- Counterexample for C2 as stated: in a batch pairing already-finalized
block 1 (number 1 < finalized height 3) with importable block 10, the old
block does fail with `BlockAlreadyFinalized` and is dropped silently, but
the remaining block 10 — although it extracts successfully — is *not*
processed: `handle_new_head` aborts the whole batch with an empty result
and an untouched overlay. -/
theorem claim_C2_counterexample :
    imported_block_info testCrypto testOracle 1 testOldHeader (some 3)
        = Except.error ImportedBlockInfoError.blockAlreadyFinalized
    ∧ exceptOk (imported_block_info testCrypto testOracle 10 testHeader (some 3)) = true
    ∧ handle_new_head testState testChain testOracle testDnbWithOld [] 10 (some 3)
        = Except.ok ⟨[], [], []⟩ :=
  ⟨rfl, rfl, rfl⟩

/-- C2 (amended): a batch block below the known finalized height fails
extraction with `BlockAlreadyFinalized` (provided the exchanges before
the check succeed), and the entire batch is aborted: `handle_new_head`
returns the empty result with the overlay untouched, emitting only the
race-checked trace (silent exactly when a different hash is finalized at
that height). -/
theorem claim_C2_amended (state : ImportState) (chain : ChainOracle) (oracle : RuntimeOracle)
    (dnb : (Hash → Bool) → Hash → Header → BlockNumber → Except Unit (List (Hash × Header)))
    (db : DB) (head : Hash) (f : BlockNumber) (header : Header)
    (newBlocks pre rest : List (Hash × Header)) (bh : Hash) (hdr : Header)
    (events : List CandidateEvent) (si : Nat)
    (hnum : hdr.number < f)
    (hev : oracle.candidateEvents bh = OResult.ok events)
    (hsess : oracle.sessionIndexForChild hdr.parentHash = OResult.ok si)
    (hheader : chain.blockHeader head = OResult.ok (some header))
    (hdnb : dnb (fun h => (lookupDB db h).isSome) head header
        (lower_bound_number header.number (some f)) = Except.ok newBlocks)
    (hsplit : newBlocks.reverse = pre ++ (bh, hdr) :: rest)
    (hpre : ∀ p ∈ pre,
      exceptOk (imported_block_info state.crypto oracle p.1 p.2 (some f)) = true) :
    imported_block_info state.crypto oracle bh hdr (some f)
        = Except.error ImportedBlockInfoError.blockAlreadyFinalized
    ∧ handle_new_head state chain oracle dnb db head (some f)
        = Except.ok ⟨[], db, raceTrace chain bh hdr⟩ := by
  have h1 := imported_block_info_finalized state.crypto oracle bh hdr f events si hnum hev hsess
  refine ⟨h1, ?_⟩
  exact handle_new_head_extract_fail state chain oracle dnb db head (some f) header newBlocks
    pre rest bh hdr hheader hdnb hsplit hpre
    (fun info hi => by rw [h1] at hi; exact Except.noConfusion hi)

/-- Witness for the amended C2 on the concrete two-block batch. -/
theorem claim_C2_witness :
    imported_block_info testCrypto testOracle 1 testOldHeader (some 3)
        = Except.error ImportedBlockInfoError.blockAlreadyFinalized
    ∧ handle_new_head testState testChain testOracle testDnbWithOld [] 10 (some 3)
        = Except.ok ⟨[], [], raceTrace testChain 1 testOldHeader⟩ :=
  claim_C2_amended testState testChain testOracle testDnbWithOld [] 10 3 testHeader
    [(10, testHeader), (1, testOldHeader)] [] [(10, testHeader)] 1 testOldHeader [] 1
    (by decide) rfl rfl rfl rfl rfl (fun p hp => absurd hp (List.not_mem_nil p))

/-- Extending a trace on the left preserves precedence. -/
theorem Precedes.append_left {a b : Action} {tr : List Action} (h : Precedes a b tr)
    (s : List Action) : Precedes a b (s ++ tr) := by
  obtain ⟨t₁, t₂, t₃, rfl⟩ := h
  exact ⟨s ++ t₁, t₂, t₃, by simp⟩

/-- Extending a trace on the right preserves precedence. -/
theorem Precedes.append_right {a b : Action} {tr : List Action} (h : Precedes a b tr)
    (s : List Action) : Precedes a b (tr ++ s) := by
  obtain ⟨t₁, t₂, t₃, rfl⟩ := h
  exact ⟨t₁, t₂, t₃ ++ s, by simp⟩

/-- The write pass is invariant under pre-filled accumulators: running
with accumulated trace/metas/results prefixes them onto the run with
empty accumulators. -/
theorem process_blocks_shift (state : ImportState) (oracle : RuntimeOracle) (head : Hash) :
    ∀ (blocks : List (Hash × Header × ImportedBlockInfo)) (db : DB) (trace : List Action)
      (metas : List BlockApprovalMeta) (res : List BlockImportedCandidates),
      process_blocks state oracle head db trace metas res blocks
        = match process_blocks state oracle head db [] [] [] blocks with
          | ProcessOutcome.aborted db' t => ProcessOutcome.aborted db' (trace ++ t)
          | ProcessOutcome.done db' t m r =>
              ProcessOutcome.done db' (trace ++ t) (metas ++ m) (res ++ r)
  | [], db, trace, metas, res => by simp [process_blocks]
  | (bh, hdr, info) :: rest, db, trace, metas, res => by
    simp only [process_blocks]
    cases hsi : oracle.sessionInfo head info.sessionIndex with
    | none => simp
    | some sinfo =>
      simp only []
      rw [process_blocks_shift state oracle head rest]
      conv_rhs => rw [process_blocks_shift state oracle head rest]
      cases process_blocks state oracle head _ [] [] [] rest with
      | aborted db' t => simp
      | done db' t m r => simp

/-- The write pass only appends to the accumulated trace. -/
theorem process_blocks_trace_prefix (state : ImportState) (oracle : RuntimeOracle)
    (head : Hash) (blocks : List (Hash × Header × ImportedBlockInfo)) (db : DB)
    (trace : List Action) (metas : List BlockApprovalMeta)
    (res : List BlockImportedCandidates) :
    ∃ s, outcomeTrace (process_blocks state oracle head db trace metas res blocks)
      = trace ++ s := by
  rw [process_blocks_shift]
  cases process_blocks state oracle head db [] [] [] blocks with
  | aborted db' t => exact ⟨t, rfl⟩
  | done db' t m r => exact ⟨t, rfl⟩

/-- Two adjacent actions in a trace are ordered. -/
theorem precedes_adjacent (a b : Action) (t₀ s : List Action) :
    Precedes a b (t₀ ++ a :: b :: s) := ⟨t₀, [], s, by simp⟩

/-- In the write pass, a block whose approved bitfield is fully set (and
whose predecessors all resolve their session info) has its `Approved`
send strictly before its block-entry write in the trace. -/
theorem process_blocks_chunk (state : ImportState) (oracle : RuntimeOracle) (head : Hash) :
    ∀ (pre : List (Hash × Header × ImportedBlockInfo)) (bh : Hash) (hdr : Header)
      (info : ImportedBlockInfo) (rest : List (Hash × Header × ImportedBlockInfo))
      (db : DB) (trace : List Action) (metas : List BlockApprovalMeta)
      (res : List BlockImportedCandidates) (sinfo : SessionInfo),
      (∀ b ∈ pre, (oracle.sessionInfo head b.2.2.sessionIndex).isSome = true) →
      oracle.sessionInfo head info.sessionIndex = some sinfo →
      countOnes (computeApprovedBitfield sinfo.neededApprovals info.nValidators
          (sinfo.validatorGroups.map List.length) info.includedCandidates)
        = (computeApprovedBitfield sinfo.neededApprovals info.nValidators
          (sinfo.validatorGroups.map List.length) info.includedCandidates).length →
      Precedes (Action.sendApproved bh) (Action.addBlock bh)
        (outcomeTrace (process_blocks state oracle head db trace metas res
          (pre ++ (bh, hdr, info) :: rest)))
  | [], bh, hdr, info, rest, db, trace, metas, res, sinfo, hpre, hsi, hset => by
    rw [List.nil_append]
    simp only [process_blocks]
    rw [hsi]
    simp only []
    rw [if_pos hset]
    rw [process_blocks_shift state oracle head rest]
    split
    · simp only [outcomeTrace, List.append_assoc, List.cons_append, List.singleton_append,
        List.nil_append]
      exact precedes_adjacent _ _ trace _
    · simp only [outcomeTrace, List.append_assoc, List.cons_append, List.singleton_append,
        List.nil_append]
      exact precedes_adjacent _ _ trace _
  | (ph, phdr, pinfo) :: pre', bh, hdr, info, rest, db, trace, metas, res, sinfo,
      hpre, hsi, hset => by
    rw [List.cons_append]
    simp only [process_blocks]
    have hp := hpre (ph, phdr, pinfo) (List.mem_cons_self _ _)
    simp only [] at hp
    cases hps : oracle.sessionInfo head pinfo.sessionIndex with
    | none =>
      rw [hps] at hp
      exact absurd hp (by simp)
    | some ps =>
      simp only []
      exact process_blocks_chunk state oracle head pre' bh hdr info rest _ _ _ _ sinfo
        (fun b hb => hpre b (List.mem_cons_of_mem _ hb)) hsi hset

/-- C4: in any `handle_new_head` run, an imported block whose approved
bitfield is fully set after the insta-approval pass (vacuously included:
zero work items) has its fully-approved report to chain selection sent
strictly before its block record is written. -/
theorem claim_C4 (state : ImportState) (chain : ChainOracle) (oracle : RuntimeOracle)
    (dnb : (Hash → Bool) → Hash → Header → BlockNumber → Except Unit (List (Hash × Header)))
    (db : DB) (head : Hash) (fin : Option BlockNumber) (header : Header)
    (newBlocks : List (Hash × Header))
    (infos ipre irest : List (Hash × Header × ImportedBlockInfo))
    (bh : Hash) (hdr : Header) (info : ImportedBlockInfo) (sinfo : SessionInfo)
    (out : HandleNewHeadOutput)
    (hheader : chain.blockHeader head = OResult.ok (some header))
    (hdnb : dnb (fun h => (lookupDB db h).isSome) head header
        (lower_bound_number header.number fin) = Except.ok newBlocks)
    (hne : newBlocks ≠ [])
    (hext : extract_blocks state.crypto oracle chain fin newBlocks.reverse = Except.ok infos)
    (hsplit : infos = ipre ++ (bh, hdr, info) :: irest)
    (hpre : ∀ b ∈ ipre, (oracle.sessionInfo head b.2.2.sessionIndex).isSome = true)
    (hsi : oracle.sessionInfo head info.sessionIndex = some sinfo)
    (hset : countOnes (computeApprovedBitfield sinfo.neededApprovals info.nValidators
          (sinfo.validatorGroups.map List.length) info.includedCandidates)
        = (computeApprovedBitfield sinfo.neededApprovals info.nValidators
          (sinfo.validatorGroups.map List.length) info.includedCandidates).length)
    (hrun : handle_new_head state chain oracle dnb db head fin = Except.ok out) :
    Precedes (Action.sendApproved bh) (Action.addBlock bh) out.trace := by
  unfold handle_new_head at hrun
  rw [hheader] at hrun
  simp only [] at hrun
  rw [hdnb] at hrun
  simp only [] at hrun
  have hne' : newBlocks.isEmpty = false := by
    cases newBlocks with
    | nil => exact absurd rfl hne
    | cons a l => rfl
  rw [hne'] at hrun
  rw [if_neg (by simp)] at hrun
  rw [hext] at hrun
  simp only [] at hrun
  have hchunk := process_blocks_chunk state oracle head ipre bh hdr info irest db [] [] []
    sinfo hpre hsi hset
  rw [← hsplit] at hchunk
  cases hp : process_blocks state oracle head db [] [] [] infos with
  | aborted db' t =>
    rw [hp] at hrun
    simp only [] at hrun
    injection hrun with h
    rw [← h]
    rw [hp] at hchunk
    simpa [outcomeTrace] using hchunk
  | done db' t m r =>
    rw [hp] at hrun
    simp only [] at hrun
    injection hrun with h
    rw [← h]
    rw [hp] at hchunk
    simp only [outcomeTrace] at hchunk
    exact hchunk.append_right [Action.sendNewBlocks m]

/-- Witness for C4: head block 10 has zero candidates, so its bitfield is
vacuously all-set; in the concrete run `Approved 10` precedes the write
of block 10. -/
theorem claim_C4_witness :
    Precedes (Action.sendApproved 10) (Action.addBlock 10)
      (HandleNewHeadOutput.mk [⟨10, 5, 7, []⟩] [(10, ⟨10, 9, 5, 1, 7, 42, [], [], []⟩)]
        [Action.sendApproved 10, Action.addBlock 10,
          Action.sendNewBlocks [⟨10, 5, 9, [], 7, 1, 42⟩]]).trace :=
  claim_C4 testState testChain testOracle testDnbSingle [] 10 none testHeader
    [(10, testHeader)] [(10, testHeader, ⟨[], 1, [], 2, 42, 7, none⟩)] []
    [] 10 testHeader ⟨[], 1, [], 2, 42, 7, none⟩ ⟨[1, 2], [[1], [2]], 0⟩
    (HandleNewHeadOutput.mk [⟨10, 5, 7, []⟩] [(10, ⟨10, 9, 5, 1, 7, 42, [], [], []⟩)]
      [Action.sendApproved 10, Action.addBlock 10,
        Action.sendNewBlocks [⟨10, 5, 9, [], 7, 1, 42⟩]])
    rfl rfl (by simp) rfl rfl (fun b hb => absurd hb (List.not_mem_nil b)) rfl rfl rfl

/-! ## Storage-map lemmas for the force-approve cascade -/

/-- Lookup through a cons cell of the store. -/
theorem lookupDB_cons (k : Hash) (v : BlockEntry) (db : DB) (x : Hash) :
    lookupDB ((k, v) :: db) x = if k = x then some v else lookupDB db x := by
  by_cases hk : k = x
  · simp [lookupDB, List.find?, hk]
  · simp [lookupDB, List.find?, hk]

/-- Lookup after an overwrite. -/
theorem lookupDB_updateDB : ∀ (db : DB) (h x : Hash) (e : BlockEntry),
    lookupDB (updateDB db h e) x
      = if x = h then (lookupDB db h).map (fun _ => e) else lookupDB db x
  | [], h, x, e => by
    simp only [updateDB, List.map_nil, lookupDB, List.find?_nil, Option.map_none']
    split <;> rfl
  | (k, v) :: db', h, x, e => by
    have ih := lookupDB_updateDB db' h x e
    by_cases hkh : k = h <;> by_cases hxh : x = h <;> by_cases hkx : k = x <;>
      simp_all [updateDB, lookupDB_cons]

/-- Marking a bitfield leaves every other field alone; in particular the
parent link. -/
theorem setFullBitfield_parentHash (e : BlockEntry) :
    (setFullBitfield e).parentHash = e.parentHash := rfl

/-- A fully-marked entry is fully approved. -/
theorem isFullyApproved_setFullBitfield (e : BlockEntry) :
    isFullyApproved (setFullBitfield e) = true := by
  simp [isFullyApproved, setFullBitfield, List.all_eq_true]

/-- Marking one entry's bitfield does not change the ancestor chain. -/
theorem ancestorAt_update_setFull (db : DB) (a : Hash) (e : BlockEntry)
    (ha : lookupDB db a = some e) :
    ∀ (k : Nat) (y : Hash),
      ancestorAt (updateDB db a (setFullBitfield e)) y k = ancestorAt db y k
  | 0, y => rfl
  | Nat.succ k, y => by
    simp only [ancestorAt]
    rw [lookupDB_updateDB]
    by_cases hy : y = a
    · rw [hy]
      rw [if_pos rfl, ha]
      simp only [Option.map_some']
      show ancestorAt _ (setFullBitfield e).parentHash k = ancestorAt db e.parentHash k
      rw [setFullBitfield_parentHash]
      exact ancestorAt_update_setFull db a e ha k e.parentHash
    · rw [if_neg hy]
      cases lookupDB db y with
      | none => rfl
      | some e' =>
        simp only []
        exact ancestorAt_update_setFull db a e ha k e'.parentHash

/-- Already-fully-approved entries are never modified by the cascade. -/
theorem force_approve_loop_keeps_approved :
    ∀ (fuel : Nat) (db : DB) (h : Hash) (upTo : BlockNumber) (x : Hash) (e : BlockEntry),
      lookupDB db x = some e → isFullyApproved e = true →
      lookupDB (force_approve_loop fuel db h upTo).1 x = some e
  | 0, db, h, upTo, x, e, hx, hfull => hx
  | Nat.succ fuel, db, h, upTo, x, e, hx, hfull => by
    simp only [force_approve_loop]
    cases hl : lookupDB db h with
    | none => exact hx
    | some entry =>
      simp only []
      by_cases hfe : isFullyApproved entry
      · rw [if_pos hfe]
        exact hx
      · rw [if_neg hfe]
        have hne : ¬(x = h) := by
          intro hh
          rw [hh, hl] at hx
          injection hx with hx'
          rw [← hx'] at hfull
          exact hfe hfull
        have hx' : lookupDB (updateDB db h (setFullBitfield entry)) x = some e := by
          rw [lookupDB_updateDB, if_neg hne]
          exact hx
        by_cases hnum : entry.blockNumber ≤ upTo
        · rw [if_pos hnum]
          exact hx'
        · rw [if_neg hnum]
          exact force_approve_loop_keeps_approved fuel _ entry.parentHash upTo x e hx' hfull

/-- Hashes the cascade does not report keep their stored entry. -/
theorem force_approve_loop_untouched :
    ∀ (fuel : Nat) (db : DB) (h : Hash) (upTo : BlockNumber) (x : Hash),
      x ∉ (force_approve_loop fuel db h upTo).2 →
      lookupDB (force_approve_loop fuel db h upTo).1 x = lookupDB db x
  | 0, db, h, upTo, x, _ => rfl
  | Nat.succ fuel, db, h, upTo, x, hmem => by
    simp only [force_approve_loop] at hmem ⊢
    cases hl : lookupDB db h with
    | none => rfl
    | some entry =>
      rw [hl] at hmem
      simp only [] at hmem ⊢
      by_cases hfe : isFullyApproved entry
      · rw [if_pos hfe]
      · rw [if_neg hfe] at hmem ⊢
        by_cases hnum : entry.blockNumber ≤ upTo
        · rw [if_pos hnum] at hmem ⊢
          have hne : ¬(x = h) := by
            intro hh
            exact hmem (by rw [hh]; exact List.mem_singleton_self h)
          rw [lookupDB_updateDB, if_neg hne]
        · rw [if_neg hnum] at hmem ⊢
          have hne : ¬(x = h) := fun hh => hmem (by rw [hh]; exact List.mem_cons_self _ _)
          have hx' : x ∉ (force_approve_loop fuel
              (updateDB db h (setFullBitfield entry)) entry.parentHash upTo).2 :=
            fun hc => hmem (List.mem_cons_of_mem _ hc)
          rw [force_approve_loop_untouched fuel _ entry.parentHash upTo x hx',
            lookupDB_updateDB, if_neg hne]

/-- Every reported hash had a stored, not-fully-approved entry before the
cascade, and ends with exactly that entry fully marked. -/
theorem force_approve_loop_new :
    ∀ (fuel : Nat) (db : DB) (h : Hash) (upTo : BlockNumber) (r : Hash),
      r ∈ (force_approve_loop fuel db h upTo).2 →
      ∃ e, lookupDB db r = some e ∧ isFullyApproved e = false ∧
        lookupDB (force_approve_loop fuel db h upTo).1 r = some (setFullBitfield e)
  | 0, db, h, upTo, r, hmem => absurd hmem (List.not_mem_nil r)
  | Nat.succ fuel, db, h, upTo, r, hmem => by
    simp only [force_approve_loop] at hmem ⊢
    cases hl : lookupDB db h with
    | none =>
      rw [hl] at hmem
      exact absurd hmem (List.not_mem_nil r)
    | some entry =>
      rw [hl] at hmem
      simp only [] at hmem ⊢
      by_cases hfe : isFullyApproved entry
      · rw [if_pos hfe] at hmem
        exact absurd hmem (List.not_mem_nil r)
      · rw [if_neg hfe] at hmem ⊢
        have hmark : lookupDB (updateDB db h (setFullBitfield entry)) h
            = some (setFullBitfield entry) := by
          rw [lookupDB_updateDB, if_pos rfl, hl]
          rfl
        by_cases hnum : entry.blockNumber ≤ upTo
        · rw [if_pos hnum] at hmem ⊢
          have hr : r = h := List.mem_singleton.mp hmem
          refine ⟨entry, ?_, by simpa using hfe, ?_⟩
          · rw [hr]
            exact hl
          · rw [hr]
            exact hmark
        · rw [if_neg hnum] at hmem ⊢
          rcases List.mem_cons.mp hmem with hr | hr
          · refine ⟨entry, ?_, by simpa using hfe, ?_⟩
            · rw [hr]
              exact hl
            · rw [hr]
              exact force_approve_loop_keeps_approved fuel _ entry.parentHash upTo h
                (setFullBitfield entry) hmark (isFullyApproved_setFullBitfield entry)
          · obtain ⟨e, he, hef, hfin⟩ := force_approve_loop_new fuel _ entry.parentHash upTo r hr
            have hne : ¬(r = h) := by
              intro hh
              rw [hh, hmark] at he
              injection he with he'
              rw [← he', isFullyApproved_setFullBitfield] at hef
              exact Bool.noConfusion hef
            refine ⟨e, ?_, hef, hfin⟩
            rw [lookupDB_updateDB, if_neg hne] at he
            exact he

/-- The cascade reports each newly-approved hash at most once. -/
theorem force_approve_loop_nodup :
    ∀ (fuel : Nat) (db : DB) (h : Hash) (upTo : BlockNumber),
      (force_approve_loop fuel db h upTo).2.Nodup
  | 0, db, h, upTo => List.nodup_nil
  | Nat.succ fuel, db, h, upTo => by
    simp only [force_approve_loop]
    cases hl : lookupDB db h with
    | none => exact List.nodup_nil
    | some entry =>
      simp only []
      by_cases hfe : isFullyApproved entry
      · rw [if_pos hfe]
        exact List.nodup_nil
      · rw [if_neg hfe]
        by_cases hnum : entry.blockNumber ≤ upTo
        · rw [if_pos hnum]
          exact List.nodup_singleton h
        · rw [if_neg hnum]
          refine List.nodup_cons.mpr ⟨?_, force_approve_loop_nodup fuel _ entry.parentHash upTo⟩
          intro hmem
          obtain ⟨e, he, hef, -⟩ := force_approve_loop_new fuel _ entry.parentHash upTo h hmem
          rw [lookupDB_updateDB, if_pos rfl, hl] at he
          injection he with he'
          rw [← he', isFullyApproved_setFullBitfield] at hef
          exact Bool.noConfusion hef

/-- Completeness of the cascade: with enough fuel, a not-yet-approved
ancestor at depth `k` is reported and fully marked, provided every strict
intermediate ancestor is present, not yet approved and above the target
height, and the walked ancestors are pairwise distinct. -/
theorem force_approve_loop_complete :
    ∀ (k fuel : Nat) (db : DB) (h : Hash) (upTo : BlockNumber) (x : Hash) (e : BlockEntry),
      k < fuel →
      ancestorAt db h k = some x →
      lookupDB db x = some e →
      isFullyApproved e = false →
      (∀ j y ey, j < k → ancestorAt db h j = some y → lookupDB db y = some ey →
        isFullyApproved ey = false ∧ upTo < ey.blockNumber) →
      (∀ i j y, i < j → j ≤ k → ancestorAt db h i = some y →
        ancestorAt db h j ≠ some y) →
      x ∈ (force_approve_loop fuel db h upTo).2 ∧
        lookupDB (force_approve_loop fuel db h upTo).1 x = some (setFullBitfield e)
  | 0, Nat.succ fuel, db, h, upTo, x, e, hfuel, hanc, hx, hfull, hmid, hdist => by
    have hxh : x = h := by
      injection hanc with h'
      exact h'.symm
    subst hxh
    simp only [force_approve_loop]
    rw [hx]
    simp only []
    rw [if_neg (by simp [hfull])]
    have hmark : lookupDB (updateDB db x (setFullBitfield e)) x
        = some (setFullBitfield e) := by
      rw [lookupDB_updateDB, if_pos rfl, hx]
      rfl
    by_cases hnum : e.blockNumber ≤ upTo
    · rw [if_pos hnum]
      exact ⟨List.mem_singleton_self x, hmark⟩
    · rw [if_neg hnum]
      refine ⟨List.mem_cons_self x _, ?_⟩
      exact force_approve_loop_keeps_approved fuel _ e.parentHash upTo x
        (setFullBitfield e) hmark (isFullyApproved_setFullBitfield e)
  | Nat.succ k, Nat.succ fuel, db, h, upTo, x, e, hfuel, hanc, hx, hfull, hmid, hdist => by
    -- the head of the walk
    cases hl : lookupDB db h with
    | none =>
      rw [ancestorAt, hl] at hanc
      exact absurd hanc (by simp)
    | some e0 =>
      have hanc' : ancestorAt db e0.parentHash k = some x := by
        rw [ancestorAt, hl] at hanc
        exact hanc
      obtain ⟨hfull0, hnum0⟩ := hmid 0 h e0 (Nat.succ_pos k) rfl hl
      have hxh : ¬(x = h) := by
        intro hh
        exact hdist 0 (Nat.succ k) h (Nat.succ_pos k) (Nat.le_refl _) rfl (hh ▸ hanc)
      simp only [force_approve_loop]
      rw [hl]
      simp only []
      rw [if_neg (by simp [hfull0])]
      have hnle : ¬(e0.blockNumber ≤ upTo) := not_le.mpr hnum0
      rw [if_neg hnle]
      -- transfer everything to the marked store
      have hinv := ancestorAt_update_setFull db h e0 hl
      have hx1 : lookupDB (updateDB db h (setFullBitfield e0)) x = some e := by
        rw [lookupDB_updateDB, if_neg hxh]
        exact hx
      have hshift : ∀ j, ancestorAt db h (j + 1) = ancestorAt db e0.parentHash j := by
        intro j
        rw [ancestorAt, hl]
      have hres := force_approve_loop_complete k fuel
        (updateDB db h (setFullBitfield e0)) e0.parentHash upTo x e
        (Nat.lt_of_succ_lt_succ hfuel)
        (by rw [hinv k e0.parentHash]; exact hanc')
        hx1 hfull
        (by
          intro j y ey hj hancj heyj
          rw [hinv j e0.parentHash, ← hshift j] at hancj
          have hyh : ¬(y = h) := by
            intro hh
            exact hdist 0 (j + 1) h (Nat.succ_pos j) (by omega) rfl (hh ▸ hancj)
          rw [lookupDB_updateDB, if_neg hyh] at heyj
          exact hmid (j + 1) y ey (by omega) hancj heyj)
        (by
          intro i j y hij hjk hanci hancj
          rw [hinv i e0.parentHash, ← hshift i] at hanci
          rw [hinv j e0.parentHash, ← hshift j] at hancj
          exact hdist (i + 1) (j + 1) y (by omega) (by omega) hanci hancj)
      exact ⟨List.mem_cons_of_mem h hres.1, hres.2⟩

/-- The exact trace of the write pass on a single block carrying a
force-approve directive: the optional insta-approval send, then the
block-entry write, then one `Approved` send per newly approved hash of
the cascade — run on the store as it stands after the write. -/
theorem process_blocks_forceApprove_trace (state : ImportState) (oracle : RuntimeOracle)
    (head bh : Hash) (hdr : Header) (info : ImportedBlockInfo) (db : DB)
    (trace : List Action) (metas : List BlockApprovalMeta)
    (res : List BlockImportedCandidates) (sinfo : SessionInfo) (upTo : BlockNumber)
    (hsi : oracle.sessionInfo head info.sessionIndex = some sinfo)
    (hfa : info.forceApprove = some upTo) :
    outcomeTrace (process_blocks state oracle head db trace metas res [(bh, hdr, info)])
      = trace
        ++ (if countOnes (computeApprovedBitfield sinfo.neededApprovals info.nValidators
              (sinfo.validatorGroups.map List.length) info.includedCandidates)
              = (computeApprovedBitfield sinfo.neededApprovals info.nValidators
                (sinfo.validatorGroups.map List.length) info.includedCandidates).length
            then [Action.sendApproved bh] else [])
        ++ [Action.addBlock bh]
        ++ ((force_approve (add_block_entry db (blockEntryOf bh hdr info sinfo)).1 bh upTo).2.map
            Action.sendApproved) := by
  simp only [process_blocks]
  rw [hsi]
  simp only []
  rw [hfa]
  simp only [process_blocks, outcomeTrace]

/-- One-step stop of the cascade at an already-fully-approved block. -/
theorem force_approve_loop_stop (fuel : Nat) (db : DB) (h : Hash) (upTo : BlockNumber)
    (e : BlockEntry) (he : lookupDB db h = some e) (hfull : isFullyApproved e = true) :
    force_approve_loop (fuel + 1) db h upTo = (db, []) := by
  simp only [force_approve_loop]
  rw [he]
  simp only []
  rw [if_pos hfull]

/-- C8 (spec-modelled cascade): the force-approve cascade, run after the
block record is written, (i) marks every walked ancestor down to the
target height inclusive with a fully-set bitfield and reports it,
(ii) stops immediately at an already-fully-approved block, (iii) leaves
every unreported hash — in particular every ancestor below the target
height — untouched, (iv) reports only blocks that were not yet fully
approved and leaves each of them fully marked, (v) reports each hash at
most once, and (vi) in the write pass the block's record write precedes
every cascade report, each newly-approved hash being sent to
chain-selection exactly once. -/
theorem claim_C8 (db : DB) (blockHash : Hash) (upTo : BlockNumber) :
    (∀ k x e, k ≤ db.length → ancestorAt db blockHash k = some x →
      lookupDB db x = some e → isFullyApproved e = false →
      (∀ j y ey, j < k → ancestorAt db blockHash j = some y → lookupDB db y = some ey →
        isFullyApproved ey = false ∧ upTo < ey.blockNumber) →
      (∀ i j y, i < j → j ≤ k → ancestorAt db blockHash i = some y →
        ancestorAt db blockHash j ≠ some y) →
      x ∈ (force_approve db blockHash upTo).2 ∧
        lookupDB (force_approve db blockHash upTo).1 x = some (setFullBitfield e))
    ∧ (∀ e, lookupDB db blockHash = some e → isFullyApproved e = true →
        force_approve db blockHash upTo = (db, []))
    ∧ (∀ x, x ∉ (force_approve db blockHash upTo).2 →
        lookupDB (force_approve db blockHash upTo).1 x = lookupDB db x)
    ∧ (∀ r, r ∈ (force_approve db blockHash upTo).2 →
        ∃ e, lookupDB db r = some e ∧ isFullyApproved e = false ∧
          lookupDB (force_approve db blockHash upTo).1 r = some (setFullBitfield e))
    ∧ ((force_approve db blockHash upTo).2.Nodup
        ∧ ∀ r, r ∈ (force_approve db blockHash upTo).2 →
            (force_approve db blockHash upTo).2.count r = 1)
    ∧ (∀ (state : ImportState) (oracle : RuntimeOracle) (head : Hash) (hdr : Header)
        (info : ImportedBlockInfo) (trace : List Action) (metas : List BlockApprovalMeta)
        (res : List BlockImportedCandidates) (sinfo : SessionInfo),
        oracle.sessionInfo head info.sessionIndex = some sinfo →
        info.forceApprove = some upTo →
        ∀ r, r ∈ (force_approve
            (add_block_entry db (blockEntryOf blockHash hdr info sinfo)).1 blockHash upTo).2 →
          Precedes (Action.addBlock blockHash) (Action.sendApproved r)
            (outcomeTrace (process_blocks state oracle head db trace metas res
              [(blockHash, hdr, info)]))
          ∧ ((force_approve
              (add_block_entry db (blockEntryOf blockHash hdr info sinfo)).1 blockHash
              upTo).2.map Action.sendApproved).count (Action.sendApproved r) = 1) := by
  refine ⟨?_, ?_, ?_, ?_, ⟨force_approve_loop_nodup _ db blockHash upTo, ?_⟩, ?_⟩
  · intro k x e hk hanc hx hfull hmid hdist
    exact force_approve_loop_complete k (db.length + 1) db blockHash upTo x e
      (Nat.lt_succ_of_le hk) hanc hx hfull hmid hdist
  · intro e he hfull
    exact force_approve_loop_stop db.length db blockHash upTo e he hfull
  · intro x hx
    exact force_approve_loop_untouched _ db blockHash upTo x hx
  · intro r hr
    exact force_approve_loop_new _ db blockHash upTo r hr
  · intro r hr
    exact List.count_eq_one_of_mem (force_approve_loop_nodup _ db blockHash upTo) hr
  · intro state oracle head hdr info trace metas res sinfo hsi hfa r hr
    constructor
    · obtain ⟨u, v, huv⟩ := List.append_of_mem hr
      rw [process_blocks_forceApprove_trace state oracle head blockHash hdr info db trace
        metas res sinfo upTo hsi hfa, huv]
      simp only [List.map_append, List.map_cons, List.append_assoc, List.singleton_append]
      have base : Precedes (Action.addBlock blockHash) (Action.sendApproved r)
          (Action.addBlock blockHash :: (u.map Action.sendApproved
            ++ Action.sendApproved r :: v.map Action.sendApproved)) :=
        ⟨[], u.map Action.sendApproved, v.map Action.sendApproved, by simp⟩
      exact (base.append_left _).append_left trace
    · have hinj : Function.Injective Action.sendApproved := fun a b h => by injection h
      rw [List.count_map_of_injective _ Action.sendApproved hinj]
      exact List.count_eq_one_of_mem (force_approve_loop_nodup _ _ blockHash upTo) hr

/-- Witness for C8 on the chain A→B→C→D where D carries "force-approve up
to B's height" (2): B — the boundary ancestor at depth 2 — is reported
and fully marked, while A below the boundary keeps its entry
untouched. -/
theorem claim_C8_witness :
    (2 ∈ (force_approve chainDB 4 2).2 ∧
      lookupDB (force_approve chainDB 4 2).1 2 = some (setFullBitfield entryB))
    ∧ lookupDB (force_approve chainDB 4 2).1 1 = some entryA :=
  ⟨(claim_C8 chainDB 4 2).1 2 2 entryB (by decide) rfl rfl rfl
    (by
      intro j y ey hj hanc hey
      interval_cases j
      · rw [show ancestorAt chainDB 4 0 = some 4 from rfl] at hanc
        injection hanc with hy
        subst hy
        rw [show lookupDB chainDB 4 = some entryD from rfl] at hey
        injection hey with he
        subst he
        decide
      · rw [show ancestorAt chainDB 4 1 = some 3 from rfl] at hanc
        injection hanc with hy
        subst hy
        rw [show lookupDB chainDB 3 = some entryC from rfl] at hey
        injection hey with he
        subst he
        decide)
    (by
      intro i j y hij hjk h1 h2
      have h0eval : ancestorAt chainDB 4 0 = some 4 := rfl
      have h1eval : ancestorAt chainDB 4 1 = some 3 := rfl
      have h2eval : ancestorAt chainDB 4 2 = some 2 := rfl
      interval_cases j
      · exact absurd hij (by omega)
      · interval_cases i
        rw [h0eval] at h1
        rw [h1eval] at h2
        rw [← h1] at h2
        injection h2 with hh
        exact absurd hh (by decide)
      · interval_cases i
        · rw [h0eval] at h1
          rw [h2eval] at h2
          rw [← h1] at h2
          injection h2 with hh
          exact absurd hh (by decide)
        · rw [h1eval] at h1
          rw [h2eval] at h2
          rw [← h1] at h2
          injection h2 with hh
          exact absurd hh (by decide)),
   ((claim_C8 chainDB 4 2).2.2.1 1 (by decide)).trans rfl⟩

end ApprovalImport
